import Mathlib

/-!
Verification of the etsy-image-downloader utility (src/download_images.js and
the auxiliary test script).  Strings are modelled as `List Char`; JavaScript
`String.prototype.split` (with a one-character separator) is modelled by
`jsSplit`; the first-match regex replacement used by `formatImageUrl` is
modelled by `replaceDim`/`matchWxH`; Node's `path.join`/`path.normalize`
(posix) by `nodePathJoin`/`nodeNormalize`.  Network and filesystem effects are
modelled by explicit `Except` results supplied through an environment record,
and the per-review loop of `downloadProductImages` by explicit state passing.
-/

/-- Model of JavaScript `s.split(sep)` for a single-character separator `sep`:
`jsSplit sep s` returns the (never empty) list of chunks of `s` between
occurrences of `sep`.  For example `jsSplit '/' "a/b" = ["a", "b"]` and
`jsSplit '/' "" = [""]`, matching the JS semantics. -/
def jsSplit (sep : Char) : List Char → List (List Char)
  | [] => [[]]
  | c :: rest =>
    if c = sep then [] :: jsSplit sep rest
    else (c :: (jsSplit sep rest).headD []) :: (jsSplit sep rest).tail

/-- Embedding of `getFilenameFromUrl` (src/download_images.js lines 35-39):
split on `'/'`, take the last part (`parts[parts.length - 1]`, total because
`jsSplit` never returns `[]`), then split on `'?'` and take index `0`. -/
def getFilenameFromUrl (imgUrl : List Char) : List Char :=
  let parts := jsSplit '/' imgUrl
  let lastPart := parts.getLastD []
  (jsSplit '?' lastPart).headD []

/-- Match of the regex fragment `[0-9]+x[0-9]+` at the start of `s`; returns
the length of the (greedy, backtracking-free: see the digit/`'x'` analysis in
the comment) match, or `none`.  Since `'x'` is not a digit, the greedy run of
leading digits is the only candidate for the first `[0-9]+`, so no
backtracking is needed to model the JS regex engine here. -/
def matchWxH (s : List Char) : Option Nat :=
  let d1 := s.takeWhile Char.isDigit
  if d1.length = 0 then none
  else
    match s.drop d1.length with
    | 'x' :: rest2 =>
      let d2 := rest2.takeWhile Char.isDigit
      if d2.length = 0 then none
      else some (d1.length + 1 + d2.length)
    | _ => none

/-- Model of `s.replace(/tok[0-9]+x[0-9]+/, repl)` for a literal token `tok`:
scan left to right; at the first position where `tok` followed by a
well-formed `WxH` dimension pattern occurs, replace that match by `repl`;
if no position matches, return the string unchanged. -/
def replaceDim (tok repl : List Char) : List Char → List Char
  | [] => []
  | c :: rest =>
    if tok.isPrefixOf (c :: rest) then
      match matchWxH (List.drop tok.length (c :: rest)) with
      | some n => repl ++ List.drop (tok.length + n) (c :: rest)
      | none => c :: replaceDim tok repl rest
    else c :: replaceDim tok repl rest

/-- Model of JavaScript `s.includes(pat)`: does `pat` occur as a contiguous
substring of `s`? -/
def jsIncludes (pat : List Char) : List Char → Bool
  | [] => pat.isEmpty
  | c :: rest => pat.isPrefixOf (c :: rest) || jsIncludes pat rest

/-- Embedding of `formatImageUrl` (src/download_images.js lines 18-27): three
family checks `includes('/iap/')`, `includes('/il/')`, `includes('/iusa/')`
in this order, each rewriting its `tok_WxH` dimension pattern to the family's
fixed canonical size; identity if no marker occurs. -/
def formatImageUrl (imgUrl : List Char) : List Char :=
  if jsIncludes "/iap/".toList imgUrl then
    replaceDim "iap_".toList "iap_640x640".toList imgUrl
  else if jsIncludes "/il/".toList imgUrl then
    replaceDim "il_".toList "il_570x456".toList imgUrl
  else if jsIncludes "/iusa/".toList imgUrl then
    replaceDim "iusa_".toList "iusa_400x400".toList imgUrl
  else imgUrl

/-- One URL family of `formatImageUrl`: its `includes` marker, the literal
token of its dimension regex, and the replacement string. -/
structure Family where
  marker : List Char
  tok : List Char
  repl : List Char
deriving DecidableEq

/-- The `/iap/` family (review thumbnails), canonical size 640x640. -/
def iapFamily : Family := ⟨"/iap/".toList, "iap_".toList, "iap_640x640".toList⟩

/-- The `/il/` family (listing images), canonical size 570x456. -/
def ilFamily : Family := ⟨"/il/".toList, "il_".toList, "il_570x456".toList⟩

/-- The `/iusa/` family, canonical size 400x400. -/
def iusaFamily : Family := ⟨"/iusa/".toList, "iusa_".toList, "iusa_400x400".toList⟩

/-- `formatImageUrl` generalised to an arbitrary order of family checks:
first family whose marker occurs in the URL wins. -/
def applyFamilies : List Family → List Char → List Char
  | [], u => u
  | f :: fs, u =>
    if jsIncludes f.marker u then replaceDim f.tok f.repl u
    else applyFamilies fs u

/-- Does the string `t` match the regex `[^_]+\.([a-zA-Z0-9]+)$` in full
(i.e. starting at its first character)?  `i` ranges over the candidate
positions of the literal `'.'`: before it one or more non-underscore
characters, after it one or more ASCII alphanumerics running to the end. -/
def isIdExtMatch (t : List Char) : Bool :=
  (List.range t.length).any fun i =>
    decide (0 < i) && (t.take i).all (fun c => decide (c ≠ '_'))
      && decide (t.getD i ' ' = '.')
      && decide (i + 1 < t.length)
      && (t.drop (i + 1)).all (fun c => c.isAlpha || c.isDigit)

/-- Model of `filename.match(/[^_]+\.([a-zA-Z0-9]+)$/)`, returning `match[0]`:
the regex is end-anchored, so a match starting at position `p` is exactly the
whole suffix from `p`; the JS engine returns the leftmost such position. -/
def idExtMatch : List Char → Option (List Char)
  | [] => none
  | c :: rest =>
    if isIdExtMatch (c :: rest) then some (c :: rest) else idExtMatch rest

/-- Embedding of `getFilenameFromUrl` from the auxiliary test script
(src/unnamed/part_000 lines 22-33): same split steps as the main utility,
then, if the regex `[^_]+\.([a-zA-Z0-9]+)$` matches, return `match[0]`,
else the plain filename. -/
def getFilenameFromUrlTest (imgUrl : List Char) : List Char :=
  let parts := jsSplit '/' imgUrl
  let lastPart := parts.getLastD []
  let filename := (jsSplit '?' lastPart).headD []
  match idExtMatch filename with
  | some m => m
  | none => filename

/-- One step of Node's posix path normalisation over already-split segments:
empty and `"."` segments are dropped; `".."` pops a previous real segment,
is kept when the stack starts with `".."`s (relative paths), and is dropped
at the root of an absolute path (`allowAboveRoot = false`).  The stack is
kept in reverse order. -/
def normStep (allowAboveRoot : Bool) (stack : List (List Char)) (seg : List Char) : List (List Char) :=
  if seg = [] ∨ seg = ['.'] then stack
  else if seg = ['.', '.'] then
    match stack with
    | [] => if allowAboveRoot then [seg] else []
    | top :: rest => if top = ['.', '.'] then seg :: stack else rest
  else seg :: stack

/-- Model of Node's posix `path.normalize`. -/
def nodeNormalize (p : List Char) : List Char :=
  if p = [] then ['.']
  else
    let isAbs : Bool := decide (p.headD ' ' = '/')
    let trailing : Bool := decide (p.getLastD ' ' = '/')
    let segs := ((jsSplit '/' p).foldl (normStep (!isAbs)) []).reverse
    let body := List.intercalate ['/'] segs
    if body = [] then
      if isAbs = true then ['/'] else if trailing = true then ['.', '/'] else ['.']
    else
      (if isAbs = true then '/' :: body else body) ++ (if trailing = true then ['/'] else [])

/-- Model of Node's posix `path.join`: drop empty arguments, join the rest
with `'/'`, normalise; all-empty input yields `"."`. -/
def nodePathJoin (parts : List (List Char)) : List Char :=
  let nonEmpty := parts.filter (fun q => !q.isEmpty)
  if nonEmpty.isEmpty then ['.'] else nodeNormalize (List.intercalate ['/'] nonEmpty)

/-- A review as seen by the per-review loop: the outer `Option` is the
sub-record `review[objectKey]` (`none` when absent or falsy), the inner
`Option` the image field `review[objectKey][imageKey]`. -/
def Review : Type := Option (Option (List Char))

/-- The guard `!review[objectKey] || !review[objectKey][imageKey]`
(src/download_images.js line 113): the image URL when both levels are
present and the string is truthy (non-empty), `none` otherwise. -/
def imageOf (r : Review) : Option (List Char) :=
  match r with
  | some (some u) => if u = [] then none else some u
  | _ => none

/-- The filename a review contributes after URL normalisation and
extraction (src/download_images.js lines 118-121), when its image field
passes the guard. -/
def derivedFilename (r : Review) : Option (List Char) :=
  (imageOf r).map fun u => getFilenameFromUrl (formatImageUrl u)

/-- Disposition of one review in the loop: counted as skipped, or as a
download attempt for a filename that succeeded or failed. -/
inductive Outcome where
  | skipped
  | downloaded (filename : List Char)
  | errored (filename : List Char)
deriving DecidableEq

/-- The loop state of `downloadProductImages`: the own keys of the
`visited` object and the three counters (src/download_images.js lines
100-104).  Lookups on `visited` also see `Object.prototype` keys; see
`jsObjTruthy`. -/
structure BatchState where
  visited : List (List Char)
  downloadCount : Nat
  skipCount : Nat
  errorCount : Nat
deriving DecidableEq

/-- The state at line 109: empty visited set, all counters zero. -/
def initState : BatchState := ⟨[], 0, 0, 0⟩

/-- External effects, as functions from request to result: `net url` is the
outcome of `axios.get(url)` (response body bytes or a transport error) and
`fsWrite filepath data` the outcome of `fs.writeFileSync(filepath, data)`. -/
structure Env where
  net : List Char → Except (List Char) (List Nat)
  fsWrite : List Char → List Nat → Except (List Char) Unit

/-- Embedding of `downloadImage` (src/download_images.js lines 62-73): the
`try` block performs the retrieval and the write; any error from either is
caught and reported as `false`; success of both is `true`.  Fallible steps
are `Except` values, so the `Bool` result itself witnesses that no error
escapes the function. -/
def downloadImage (response : Except (List Char) (List Nat))
    (writeBody : List Nat → Except (List Char) Unit) : Bool :=
  match response with
  | Except.error _ => false
  | Except.ok data =>
    match writeBody data with
    | Except.ok _ => true
    | Except.error _ => false

/-- The property names a plain object literal `{}` inherits from
`Object.prototype`.  Looking any of these up yields an inherited function
(for `__proto__`, the prototype object via its accessor) — a truthy value —
even though the key was never stored on the object itself. -/
def protoKeys : List (List Char) :=
  ["constructor".toList, "hasOwnProperty".toList, "isPrototypeOf".toList,
    "propertyIsEnumerable".toList, "toLocaleString".toList, "toString".toList,
    "valueOf".toList, "__proto__".toList, "__defineGetter__".toList,
    "__defineSetter__".toList, "__lookupGetter__".toList,
    "__lookupSetter__".toList]

/-- Truthiness of the JS lookup `obj[k]` on a plain object literal whose own
keys are `stored` (each mapped to `true` by the source): an own key is
truthy, and so is any key inherited from `Object.prototype`. -/
def jsObjTruthy (stored : List (List Char)) (k : List Char) : Bool :=
  decide (k ∈ stored) || decide (k ∈ protoKeys)

/-- One iteration of the per-review loop (src/download_images.js lines
109-139): missing sub-record or image field counts as skipped; otherwise the
URL is normalised, the filename extracted, and the check `visited[filename]`
performed — truthy both for own keys and for `Object.prototype`-inherited
keys, since `visited` is the plain literal `{}` — counting as skipped when
truthy; otherwise the filename is inserted into the visited set before
`downloadImage` is called, whose result selects the counter.  (The
assignment `visited[filename] = true` is modelled as storing an own key;
the one JS exception, `__proto__`, whose assignment would not create an own
key, is unreachable here because its lookup is already truthy.) -/
def processReview (env : Env) (folder : List Char) (s : BatchState) (r : Review) :
    BatchState × Outcome :=
  match imageOf r with
  | none => ({ s with skipCount := s.skipCount + 1 }, Outcome.skipped)
  | some rawUrl =>
    let imgUrl := formatImageUrl rawUrl
    let filename := getFilenameFromUrl imgUrl
    let filepath := nodePathJoin [folder, filename]
    if jsObjTruthy s.visited filename then
      ({ s with skipCount := s.skipCount + 1 }, Outcome.skipped)
    else
      let s2 := { s with visited := filename :: s.visited }
      if downloadImage (env.net imgUrl) (env.fsWrite filepath) then
        ({ s2 with downloadCount := s2.downloadCount + 1 }, Outcome.downloaded filename)
      else
        ({ s2 with errorCount := s2.errorCount + 1 }, Outcome.errored filename)

/-- The whole per-review loop, also returning the outcome of each review in
order. -/
def processReviews (env : Env) (folder : List Char) :
    List Review → BatchState → BatchState × List Outcome
  | [], s => (s, [])
  | r :: rs, s =>
    let p := processReview env folder s r
    let q := processReviews env folder rs p.1
    (q.1, p.2 :: q.2)

/-- The final report of `downloadProductImages` (lines 141-145). -/
structure Summary where
  total : Nat
  downloaded : Nat
  skipped : Nat
  errored : Nat
deriving DecidableEq

/-- The unhandled JavaScript fault raised by `data['Reviews'].length` when
the key is absent (`TypeError` on reading `length` of `undefined`). -/
inductive JsFault where
  | undefinedLength
deriving DecidableEq

/-- Embedding of `downloadProductImages` (src/download_images.js lines
83-146) after the file read: `parsed` is the result of
`JSON.parse` (`Except.error` for unreadable/unparseable input, which is
caught and ends the invocation early with no summary), and the `Option`
inside is the lookup `data['Reviews']` (`none` when the key is absent, in
which case the unguarded `.length` at line 101 raises a fault). -/
def downloadProductImages (env : Env)
    (parsed : Except (List Char) (Option (List Review))) (outputFolder : List Char) :
    Except JsFault (Option Summary) :=
  match parsed with
  | Except.error _ => Except.ok none
  | Except.ok none => Except.error JsFault.undefinedLength
  | Except.ok (some reviews) =>
    let result := processReviews env outputFolder reviews initState
    Except.ok (some ⟨reviews.length, result.1.downloadCount, result.1.skipCount, result.1.errorCount⟩)

/-- Exit status of the process (src/download_images.js lines 178-181): a
fault escaping `downloadProductImages` is caught by `main().catch` and turns
into `process.exit(1)`; otherwise the process completes with status 0. -/
def mainExitCode (env : Env) (parsed : Except (List Char) (Option (List Review)))
    (outputFolder : List Char) : Nat :=
  match downloadProductImages env parsed outputFolder with
  | Except.error _ => 1
  | Except.ok _ => 0

/-- Is this outcome a download attempt (successful or failed) for the
filename `f`? -/
def isAttemptOn (f : List Char) : Outcome → Bool
  | Outcome.downloaded g => decide (g = f)
  | Outcome.errored g => decide (g = f)
  | Outcome.skipped => false

/-! ### Properties of `jsSplit` and the filename extractor -/

/-- `jsSplit` never returns the empty list, so indexing
`parts[parts.length - 1]` and `[0]` in the source is total. -/
theorem jsSplit_ne_nil (sep : Char) (s : List Char) : jsSplit sep s ≠ [] := by
  cases s with
  | nil => simp [jsSplit]
  | cons c rest =>
    unfold jsSplit
    by_cases h : c = sep <;> simp [h]

/-- The first chunk of `jsSplit` is the longest separator-free prefix. -/
theorem jsSplit_headD (sep : Char) (s : List Char) :
    (jsSplit sep s).headD [] = s.takeWhile (fun c => decide (c ≠ sep)) := by
  induction s with
  | nil => simp [jsSplit]
  | cons c rest ih =>
    simp only [jsSplit]
    by_cases h : c = sep
    · rw [if_pos h, List.headD_cons, List.takeWhile_cons_of_neg (by simp [h])]
    · rw [if_neg h, List.headD_cons, List.takeWhile_cons_of_pos (by simpa using h), ih]

/-- A separator-free string is not split at all. -/
theorem jsSplit_of_not_mem (sep : Char) (s : List Char) (h : sep ∉ s) :
    jsSplit sep s = [s] := by
  induction s with
  | nil => rfl
  | cons c rest ih =>
    have hc : ¬ c = sep := fun hcs => h (hcs ▸ List.mem_cons_self c rest)
    have hr : sep ∉ rest := fun hm => h (List.mem_cons_of_mem c hm)
    unfold jsSplit
    simp [hc, ih hr]

/-- If the separator occurs in the string, the split has at least two
chunks. -/
theorem jsSplit_length_ge_two (sep : Char) (s : List Char) (h : sep ∈ s) :
    2 ≤ (jsSplit sep s).length := by
  induction s with
  | nil => cases h
  | cons c rest ih =>
    unfold jsSplit
    by_cases hc : c = sep
    · simp [hc]
      exact List.length_pos.mpr (jsSplit_ne_nil sep rest)
    · have hm : sep ∈ rest := by
        cases List.mem_cons.mp h with
        | inl h0 => exact absurd h0.symm hc
        | inr h0 => exact h0
      have h2 := ih hm
      rcases hr : jsSplit sep rest with _ | ⟨r0, rtl⟩
      · exact absurd hr (jsSplit_ne_nil sep rest)
      · simp [hc, hr]
        rw [hr] at h2
        simpa using h2

/-- Appending an element that fails the predicate does not change
`takeWhile`. -/
theorem takeWhile_append_last_neg {α : Type} (p : α → Bool) (xs : List α) (x : α)
    (hx : p x = false) : (xs ++ [x]).takeWhile p = xs.takeWhile p := by
  induction xs with
  | nil => simp [List.takeWhile_cons, hx]
  | cons y ys ih =>
    by_cases hy : p y = true
    · simp only [List.cons_append, List.takeWhile_cons_of_pos hy, ih]
    · simp only [List.cons_append, List.takeWhile_cons_of_neg hy]

/-- If some element of `xs` fails the predicate, `takeWhile` never looks past
`xs`. -/
theorem takeWhile_append_of_stop {α : Type} (p : α → Bool) (xs zs : List α)
    (h : ∃ y ∈ xs, p y = false) : (xs ++ zs).takeWhile p = xs.takeWhile p := by
  induction xs with
  | nil => rcases h with ⟨y, hy, _⟩; cases hy
  | cons a as ih =>
    by_cases ha : p a = true
    · obtain ⟨y, hy, hpy⟩ := h
      have hstop : ∃ y ∈ as, p y = false := by
        rcases List.mem_cons.mp hy with rfl | hmemy
        · rw [ha] at hpy; cases hpy
        · exact ⟨y, hmemy, hpy⟩
      simp only [List.cons_append, List.takeWhile_cons_of_pos ha, ih hstop]
    · simp only [List.cons_append, List.takeWhile_cons_of_neg ha]

/-- `takeWhile` of a list all of whose elements pass is the list itself. -/
theorem takeWhile_eq_self_of_all {α : Type} (p : α → Bool) (xs : List α)
    (h : ∀ y ∈ xs, p y = true) : xs.takeWhile p = xs := by
  induction xs with
  | nil => rfl
  | cons a as ih =>
    rw [List.takeWhile_cons_of_pos (h a (List.mem_cons_self a as)),
      ih fun y hy => h y (List.mem_cons_of_mem a hy)]

/-- The last chunk of `jsSplit` is the longest separator-free suffix: what the
source calls `parts[parts.length - 1]` is the part of the string after its
last separator. -/
theorem jsSplit_getLastD (sep : Char) (s : List Char) :
    (jsSplit sep s).getLastD [] = (s.reverse.takeWhile (fun c => decide (c ≠ sep))).reverse := by
  induction s with
  | nil => simp [jsSplit]
  | cons c rest ih =>
    simp only [jsSplit, List.reverse_cons]
    by_cases h : c = sep
    · subst h
      rw [if_pos rfl, List.getLastD_cons,
        takeWhile_append_last_neg _ _ _ (by simp), ih]
    · rw [if_neg h]
      by_cases hmem : sep ∈ rest
      · have h2 := jsSplit_length_ge_two sep rest hmem
        rcases hr : jsSplit sep rest with _ | ⟨r0, rtl⟩
        · exact absurd hr (jsSplit_ne_nil sep rest)
        · rcases rtl with _ | ⟨r1, rtl2⟩
          · rw [hr] at h2; simp at h2
          · have ih2 := ih
            rw [hr, List.getLastD_cons, List.getLastD_cons] at ih2
            simp only [List.headD_cons, List.tail_cons]
            rw [List.getLastD_cons, List.getLastD_cons,
              takeWhile_append_of_stop _ _ _ ⟨sep, List.mem_reverse.mpr hmem, by simp⟩]
            exact ih2
      · rw [jsSplit_of_not_mem sep rest hmem]
        have hall : ∀ y ∈ rest.reverse, (fun c => decide (c ≠ sep)) y = true := by
          intro y hy
          simp only [decide_eq_true_eq]
          intro hEq
          exact hmem (hEq ▸ List.mem_reverse.mp hy)
        rw [List.takeWhile_append_of_pos hall]
        simp [List.takeWhile_cons, h]

/-- Characterisation of the filename extractor: the longest `'/'`-free suffix
of the URL, truncated at the first `'?'`. -/
theorem getFilenameFromUrl_eq_spec (u : List Char) :
    getFilenameFromUrl u =
      ((u.reverse.takeWhile (fun c => decide (c ≠ '/'))).reverse).takeWhile
        (fun c => decide (c ≠ '?')) := by
  simp only [getFilenameFromUrl]
  rw [jsSplit_getLastD, jsSplit_headD]

/-- The extracted filename contains neither `'/'` nor `'?'`. -/
theorem mem_getFilenameFromUrl (u : List Char) (c : Char)
    (h : c ∈ getFilenameFromUrl u) : c ≠ '/' ∧ c ≠ '?' := by
  rw [getFilenameFromUrl_eq_spec] at h
  have h1 : c ≠ '?' := by simpa using List.mem_takeWhile_imp h
  have h2 : c ∈ (u.reverse.takeWhile fun c => decide (c ≠ '/')).reverse :=
    (List.takeWhile_prefix _).subset h
  have h3 : c ≠ '/' := by
    simpa using List.mem_takeWhile_imp (List.mem_reverse.mp h2)
  exact ⟨h3, h1⟩

/-- Extraction is idempotent: a bare extracted filename re-extracts to
itself. -/
theorem getFilenameFromUrl_idem (u : List Char) :
    getFilenameFromUrl (getFilenameFromUrl u) = getFilenameFromUrl u := by
  have hslash : '/' ∉ getFilenameFromUrl u := fun hm =>
    (mem_getFilenameFromUrl u '/' hm).1 rfl
  have hqm : '?' ∉ getFilenameFromUrl u := fun hm =>
    (mem_getFilenameFromUrl u '?' hm).2 rfl
  generalize hf : getFilenameFromUrl u = f at hslash hqm
  simp only [getFilenameFromUrl]
  rw [jsSplit_of_not_mem '/' f hslash, List.getLastD_cons, List.getLastD_nil,
    jsSplit_headD, takeWhile_eq_self_of_all]
  intro y hy
  simp only [decide_eq_true_eq]
  intro hEq
  exact hqm (hEq ▸ hy)

/-! ### Properties of the per-review loop -/

/-- Unfolding of the loop on a first review (state component). -/
theorem processReviews_cons_fst (env : Env) (folder : List Char) (r : Review)
    (rs : List Review) (s : BatchState) :
    (processReviews env folder (r :: rs) s).1 =
      (processReviews env folder rs (processReview env folder s r).1).1 := rfl

/-- Unfolding of the loop on a first review (outcome component). -/
theorem processReviews_cons_snd (env : Env) (folder : List Char) (r : Review)
    (rs : List Review) (s : BatchState) :
    (processReviews env folder (r :: rs) s).2 =
      (processReview env folder s r).2 ::
        (processReviews env folder rs (processReview env folder s r).1).2 := rfl

/-- The loop over a concatenation threads its state left to right (state
component). -/
theorem processReviews_append_fst (env : Env) (folder : List Char)
    (xs ys : List Review) (s : BatchState) :
    (processReviews env folder (xs ++ ys) s).1 =
      (processReviews env folder ys (processReviews env folder xs s).1).1 := by
  induction xs generalizing s with
  | nil => rfl
  | cons r rest ih =>
    rw [List.cons_append, processReviews_cons_fst, ih, processReviews_cons_fst]

/-- The loop over a concatenation threads its state left to right (outcome
component). -/
theorem processReviews_append_snd (env : Env) (folder : List Char)
    (xs ys : List Review) (s : BatchState) :
    (processReviews env folder (xs ++ ys) s).2 =
      (processReviews env folder xs s).2 ++
        (processReviews env folder ys (processReviews env folder xs s).1).2 := by
  induction xs generalizing s with
  | nil => rfl
  | cons r rest ih =>
    rw [List.cons_append, processReviews_cons_snd, ih, processReviews_cons_snd,
      processReviews_cons_fst, List.cons_append]

/-- The loop emits one outcome per review. -/
theorem processReviews_length (env : Env) (folder : List Char) (rs : List Review) :
    ∀ s : BatchState, (processReviews env folder rs s).2.length = rs.length := by
  induction rs with
  | nil => intro s; rfl
  | cons r rest ih =>
    intro s
    rw [processReviews_cons_snd, List.length_cons, ih, List.length_cons]

/-- Case analysis of one loop iteration: either the review is counted as
skipped and the visited set is unchanged, or its derived filename was
neither an own key nor a prototype-inherited key, was inserted, and the
review became a download attempt for it. -/
theorem processReview_spec (env : Env) (folder : List Char) (s : BatchState) (r : Review) :
    ((processReview env folder s r).2 = Outcome.skipped ∧
      (processReview env folder s r).1.visited = s.visited)
    ∨ (∃ g, derivedFilename r = some g ∧ g ∉ s.visited ∧ g ∉ protoKeys ∧
        (processReview env folder s r).1.visited = g :: s.visited ∧
        ((processReview env folder s r).2 = Outcome.downloaded g ∨
          (processReview env folder s r).2 = Outcome.errored g)) := by
  cases h : imageOf r with
  | none => left; simp [processReview, h]
  | some u =>
    cases hv : jsObjTruthy s.visited (getFilenameFromUrl (formatImageUrl u)) with
    | true => left; simp [processReview, h, hv]
    | false =>
      have hv2 : getFilenameFromUrl (formatImageUrl u) ∉ s.visited
          ∧ getFilenameFromUrl (formatImageUrl u) ∉ protoKeys := by
        simpa [jsObjTruthy] using hv
      right
      refine ⟨getFilenameFromUrl (formatImageUrl u), by simp [derivedFilename, h],
        hv2.1, hv2.2, ?_, ?_⟩
      · cases hd : downloadImage (env.net (formatImageUrl u))
          (env.fsWrite (nodePathJoin [folder, getFilenameFromUrl (formatImageUrl u)])) with
        | false => simp [processReview, h, hv, hd]
        | true => simp [processReview, h, hv, hd]
      · cases hd : downloadImage (env.net (formatImageUrl u))
          (env.fsWrite (nodePathJoin [folder, getFilenameFromUrl (formatImageUrl u)])) with
        | false => right; simp [processReview, h, hv, hd]
        | true => left; simp [processReview, h, hv, hd]

/-- One iteration only grows the visited set. -/
theorem processReview_visited_sub (env : Env) (folder : List Char) (s : BatchState)
    (r : Review) : s.visited ⊆ (processReview env folder s r).1.visited := by
  rcases processReview_spec env folder s r with ⟨_, hv⟩ | ⟨g, _, _, _, hv, _⟩
  · rw [hv]; exact fun x hx => hx
  · rw [hv]; exact List.subset_cons_self g s.visited

/-- The whole loop only grows the visited set. -/
theorem processReviews_visited_sub (env : Env) (folder : List Char) (rs : List Review) :
    ∀ s : BatchState, s.visited ⊆ (processReviews env folder rs s).1.visited := by
  induction rs with
  | nil => intro s; exact fun x hx => hx
  | cons r rest ih =>
    intro s
    rw [processReviews_cons_fst]
    exact fun x hx => ih _ (processReview_visited_sub env folder s r hx)

/-- After an iteration on a review that passes the image guard and whose
derived filename is not a prototype-inherited key, that filename is in the
visited set (it is inserted before the download is even attempted, and kept
there whatever the attempt's outcome).  For a prototype-inherited key the
truthy lookup skips the review without inserting anything. -/
theorem processReview_visited_of_derived (env : Env) (folder : List Char)
    (s : BatchState) (r : Review) (f : List Char) (h : derivedFilename r = some f)
    (hp : f ∉ protoKeys) :
    f ∈ (processReview env folder s r).1.visited := by
  obtain ⟨u, hu, rfl⟩ : ∃ u, imageOf r = some u ∧ f = getFilenameFromUrl (formatImageUrl u) := by
    cases hmap : imageOf r with
    | none => rw [derivedFilename, hmap] at h; cases h
    | some u =>
      rw [derivedFilename, hmap] at h
      exact ⟨u, rfl, (Option.some.injEq _ _ ▸ h :
        getFilenameFromUrl (formatImageUrl u) = f).symm⟩
  by_cases hv : getFilenameFromUrl (formatImageUrl u) ∈ s.visited
  · rcases processReview_spec env folder s r with ⟨_, hvis⟩ | ⟨g, _, _, _, hvis, _⟩
    · rw [hvis]; exact hv
    · rw [hvis]; exact List.mem_cons_of_mem g hv
  · have hv3 : jsObjTruthy s.visited (getFilenameFromUrl (formatImageUrl u)) = false := by
      simp [jsObjTruthy, hv, hp]
    cases hd : downloadImage (env.net (formatImageUrl u))
      (env.fsWrite (nodePathJoin [folder, getFilenameFromUrl (formatImageUrl u)])) with
    | false => simp [processReview, hu, hv3, hd]
    | true => simp [processReview, hu, hv3, hd]

/-- A review whose derived filename is already visited is counted as
skipped. -/
theorem processReview_skipped_of_visited (env : Env) (folder : List Char)
    (s : BatchState) (r : Review) (f : List Char) (h : derivedFilename r = some f)
    (hv : f ∈ s.visited) : (processReview env folder s r).2 = Outcome.skipped := by
  obtain ⟨u, hu, rfl⟩ : ∃ u, imageOf r = some u ∧ f = getFilenameFromUrl (formatImageUrl u) := by
    cases hmap : imageOf r with
    | none => rw [derivedFilename, hmap] at h; cases h
    | some u =>
      rw [derivedFilename, hmap] at h
      exact ⟨u, rfl, (Option.some.injEq _ _ ▸ h :
        getFilenameFromUrl (formatImageUrl u) = f).symm⟩
  have hv3 : jsObjTruthy s.visited (getFilenameFromUrl (formatImageUrl u)) = true := by
    simp [jsObjTruthy, hv]
  simp [processReview, hu, hv3]

/-- Accounting of download attempts for a fixed filename `f`: running the
loop from state `s` performs exactly one attempt for `f` if `f` ends up
visited without having been visited in `s`, and none otherwise. -/
theorem processReviews_countP_attempts (env : Env) (folder : List Char) (f : List Char)
    (rs : List Review) : ∀ s : BatchState,
    List.countP (isAttemptOn f) (processReviews env folder rs s).2
        + (if f ∈ s.visited then 1 else 0)
      = (if f ∈ (processReviews env folder rs s).1.visited then 1 else 0) := by
  induction rs with
  | nil => intro s; simp [processReviews]
  | cons r rest ih =>
    intro s
    rw [processReviews_cons_snd, processReviews_cons_fst, List.countP_cons]
    rcases processReview_spec env folder s r with ⟨ho, hv⟩ | ⟨g, _, hgnv, _, hv, ho⟩
    · have ihs := ih (processReview env folder s r).1
      rw [hv] at ihs
      rw [ho]
      simpa [isAttemptOn] using ihs
    · have ihs := ih (processReview env folder s r).1
      rw [hv] at ihs
      by_cases hgf : g = f
      · subst hgf
        have hmem : g ∈ g :: s.visited := List.mem_cons_self g s.visited
        rw [if_pos hmem] at ihs
        rw [if_neg hgnv]
        rcases ho with ho | ho <;>
          · rw [ho]
            simpa [isAttemptOn] using ihs
      · have hmem : (f ∈ g :: s.visited) ↔ (f ∈ s.visited) := by
          rw [List.mem_cons]
          exact ⟨fun h => h.elim (fun he => absurd he.symm hgf) id, Or.inr⟩
        simp only [hmem] at ihs
        rcases ho with ho | ho <;>
          · rw [ho]
            simpa [isAttemptOn, hgf] using ihs

/-- One iteration increments exactly one of the three counters. -/
theorem processReview_counts (env : Env) (folder : List Char) (s : BatchState) (r : Review) :
    (processReview env folder s r).1.downloadCount + (processReview env folder s r).1.skipCount
        + (processReview env folder s r).1.errorCount
      = s.downloadCount + s.skipCount + s.errorCount + 1 := by
  cases h : imageOf r with
  | none => simp [processReview, h]; omega
  | some u =>
    cases hv : jsObjTruthy s.visited (getFilenameFromUrl (formatImageUrl u)) with
    | true => simp [processReview, h, hv]; omega
    | false =>
      cases hd : downloadImage (env.net (formatImageUrl u))
        (env.fsWrite (nodePathJoin [folder, getFilenameFromUrl (formatImageUrl u)])) with
      | false => simp [processReview, h, hv, hd]; omega
      | true => simp [processReview, h, hv, hd]; omega

/-- The loop adds the number of reviews to the sum of the three counters. -/
theorem processReviews_counts (env : Env) (folder : List Char) (rs : List Review) :
    ∀ s : BatchState,
    (processReviews env folder rs s).1.downloadCount
        + (processReviews env folder rs s).1.skipCount
        + (processReviews env folder rs s).1.errorCount
      = s.downloadCount + s.skipCount + s.errorCount + rs.length := by
  induction rs with
  | nil => intro s; simp [processReviews]
  | cons r rest ih =>
    intro s
    rw [processReviews_cons_fst, List.length_cons, ih,
      processReview_counts env folder s r]
    omega

/-- Indexing into the middle of a concatenation shaped like the outcome list
of a split run: the element after a prefix of length `|oA| + 1 + |oB|` is
`o2`. -/
theorem get?_concat_mid (oA oB oC : List Outcome) (o1 o2 : Outcome) :
    (oA ++ (o1 :: (oB ++ (o2 :: oC)))).get? (oA.length + (1 + oB.length)) = some o2 := by
  induction oA with
  | nil =>
    simp only [List.nil_append, List.length_nil, Nat.zero_add]
    rw [Nat.add_comm 1 oB.length, List.get?_cons_succ]
    induction oB with
    | nil => rfl
    | cons b bs ihb => simpa using ihb
  | cons a as iha =>
    simp only [List.cons_append, List.length_cons]
    rw [(by omega : as.length + 1 + (1 + oB.length) = as.length + (1 + oB.length) + 1),
      List.get?_cons_succ]
    exact iha

/-- If no family marker of `l` occurs in `u`, applying the families of `l`
in order leaves `u` unchanged. -/
theorem applyFamilies_of_none (u : List Char) :
    ∀ l : List Family, (∀ g ∈ l, jsIncludes g.marker u = false) →
    applyFamilies l u = u := by
  intro l
  induction l with
  | nil => intro _; rfl
  | cons g gs ih =>
    intro h
    rw [applyFamilies, if_neg (by simp [h g (List.mem_cons_self g gs)])]
    exact ih fun g2 hg2 => h g2 (List.mem_cons_of_mem g hg2)

/-- If some family of `l` matches `u` and every matching family of `l`
rewrites `u` the same way, applying the families of `l` in order performs
that rewrite. -/
theorem applyFamilies_of_matched (u : List Char) (fstar : Family)
    (hm : jsIncludes fstar.marker u = true) :
    ∀ l : List Family, fstar ∈ l →
    (∀ g ∈ l, jsIncludes g.marker u = true →
      replaceDim g.tok g.repl u = replaceDim fstar.tok fstar.repl u) →
    applyFamilies l u = replaceDim fstar.tok fstar.repl u := by
  intro l
  induction l with
  | nil => intro h; cases h
  | cons g gs ih =>
    intro hmem hsame
    by_cases hg : jsIncludes g.marker u = true
    · rw [applyFamilies, if_pos (by simp [hg])]
      exact hsame g (List.mem_cons_self g gs) hg
    · rw [applyFamilies, if_neg (by simp [hg])]
      have hmem2 : fstar ∈ gs := by
        rcases List.mem_cons.mp hmem with rfl | h2
        · exact absurd hm hg
        · exact h2
      exact ih hmem2 fun g2 hg2 hinc => hsame g2 (List.mem_cons_of_mem g hg2) hinc

/-- `path.join(folder, '')` is `path.normalize(folder)` (Node drops the
empty component, then normalises; the all-empty case gives `"."` on both
sides). -/
theorem nodePathJoin_empty_right (folder : List Char) :
    nodePathJoin [folder, []] = nodeNormalize folder := by
  cases folder with
  | nil => rfl
  | cons c cs =>
    simp only [nodePathJoin, List.filter, List.isEmpty_cons, List.isEmpty_nil]
    simp [List.intercalate]

/-! ### The claims -/

/-- Claim C3, counterexample: normalizing
`https://i.example.com/iap_75x75.12345.jpg` does not return
`https://i.example.com/iap_640x640.12345.jpg`, because the main utility's
family check is `includes('/iap/')` and that URL has no `/iap/` path
segment. -/
theorem claim_scenario_a_counterexample :
    formatImageUrl "https://i.example.com/iap_75x75.12345.jpg".toList
      ≠ "https://i.example.com/iap_640x640.12345.jpg".toList := by decide

/-- Claim C3, amended: the URL Normalizer returns that URL unchanged (its
`/iap/` marker is absent), and the Filename Extractor applied to the
normalized URL returns `iap_75x75.12345.jpg`. -/
theorem claim_scenario_a_amended :
    formatImageUrl "https://i.example.com/iap_75x75.12345.jpg".toList
        = "https://i.example.com/iap_75x75.12345.jpg".toList
    ∧ getFilenameFromUrl
          (formatImageUrl "https://i.example.com/iap_75x75.12345.jpg".toList)
        = "iap_75x75.12345.jpg".toList := by
  exact ⟨by decide, by decide⟩

/-- Claim C5: for every URL, the Filename Extractor returns the final
`'/'`-separated path segment (the maximal `'/'`-free suffix) with everything
from the first `'?'` onward removed, and extraction is idempotent. -/
theorem claim_filename_extraction (u : List Char) :
    getFilenameFromUrl u =
      ((u.reverse.takeWhile (fun c => decide (c ≠ '/'))).reverse).takeWhile
        (fun c => decide (c ≠ '?'))
    ∧ getFilenameFromUrl (getFilenameFromUrl u) = getFilenameFromUrl u :=
  ⟨getFilenameFromUrl_eq_spec u, getFilenameFromUrl_idem u⟩

/-- Claim C6: the Fetcher is a total `Bool`-valued function of the transport
and write results (no exception escapes it): it returns `true` exactly when
the retrieval and the write both succeed, and `false` exactly when either
fails. -/
theorem claim_fetcher_total (response : Except (List Char) (List Nat))
    (writeBody : List Nat → Except (List Char) Unit) :
    (downloadImage response writeBody = true ↔
      ∃ d, response = Except.ok d ∧ writeBody d = Except.ok ())
    ∧ (downloadImage response writeBody = false ↔
      ((∃ e, response = Except.error e) ∨
        ∃ d e, response = Except.ok d ∧ writeBody d = Except.error e)) := by
  cases response with
  | error e => simp [downloadImage]
  | ok d =>
    cases hw : writeBody d with
    | ok u => cases u; simp [downloadImage, hw]
    | error e => simp [downloadImage, hw]

/-- Claim C7: when the input parses but the top-level `Reviews` key is
absent, the Batch Processor raises the unguarded `length`-of-`undefined`
fault at line 101, and the process terminates with exit status 1 via the
top-level handler. -/
theorem claim_missing_reviews_fault (env : Env) (folder : List Char) :
    downloadProductImages env (Except.ok none) folder
        = Except.error JsFault.undefinedLength
    ∧ mainExitCode env (Except.ok none) folder = 1 :=
  ⟨rfl, rfl⟩

/-- Claim C9: on the test script's own second filename test case, the
test-script extractor returns `570x456.67890.jpg` — not the `67890.jpg` its
test expects, because `[^_]+` also matches dots, so the match starts right
after the underscore — and it disagrees with the main extractor, which
returns the whole segment `il_570x456.67890.jpg`. -/
theorem claim_test_extractor_divergence :
    getFilenameFromUrlTest
        "https://i.etsystatic.com/il_570x456.67890.jpg?version=0".toList
      = "570x456.67890.jpg".toList
    ∧ getFilenameFromUrlTest
        "https://i.etsystatic.com/il_570x456.67890.jpg?version=0".toList
      ≠ "67890.jpg".toList
    ∧ getFilenameFromUrl
        "https://i.etsystatic.com/il_570x456.67890.jpg?version=0".toList
      ≠ getFilenameFromUrlTest
        "https://i.etsystatic.com/il_570x456.67890.jpg?version=0".toList := by
  exact ⟨by decide, by decide, by decide⟩

/-- Claim C1: for every run of the Batch Processor that reaches the
per-review loop, the downloaded, skipped and errored counters of the final
summary add up to its total, which is the number of reviews in the
`Reviews` sequence. -/
theorem claim_counters_sum (env : Env) (folder : List Char) (rs : List Review)
    (sm : Summary)
    (hrun : downloadProductImages env (Except.ok (some rs)) folder
      = Except.ok (some sm)) :
    sm.downloaded + sm.skipped + sm.errored = sm.total ∧ sm.total = rs.length := by
  simp only [downloadProductImages, Except.ok.injEq, Option.some.injEq] at hrun
  subst hrun
  refine ⟨?_, rfl⟩
  have h := processReviews_counts env folder rs initState
  simpa [initState] using h

/-- Witness for C1 at a concrete two-review run (one downloaded, one skipped
for a missing sub-record). -/
theorem claim_counters_sum_witness :
    downloadProductImages ⟨fun _ => Except.ok [], fun _ _ => Except.ok ()⟩
        (Except.ok (some [some (some "https://e.com/a.jpg".toList), none])) []
      = Except.ok (some ⟨2, 1, 1, 0⟩)
    ∧ ((1 : Nat) + 1 + 0 = 2
      ∧ (2 : Nat) = List.length
          [some (some "https://e.com/a.jpg".toList), (none : Review)]) := by
  refine ⟨rfl, ?_⟩
  exact claim_counters_sum ⟨fun _ => Except.ok [], fun _ _ => Except.ok ()⟩ []
    [some (some "https://e.com/a.jpg".toList), none] ⟨2, 1, 1, 0⟩ rfl

/-- Claim C4, counterexample: a review deriving the filename `constructor`,
which is not in the (empty) Visited Set, is neither inserted nor attempted:
the `visited[filename]` check is truthy from the start because `{}` inherits
`constructor` from `Object.prototype`, so the review is skipped (not
errored, although the transport here would fail) and the visited set stays
empty. -/
theorem claim_visited_before_attempt_counterexample :
    derivedFilename (some (some "https://e.com/constructor".toList))
        = some "constructor".toList
    ∧ "constructor".toList ∉ initState.visited
    ∧ (processReviews ⟨fun _ => Except.error [], fun _ _ => Except.ok ()⟩ []
        [some (some "https://e.com/constructor".toList)] initState).2
      = [Outcome.skipped]
    ∧ "constructor".toList ∉ (processReviews
        ⟨fun _ => Except.error [], fun _ _ => Except.ok ()⟩ []
        [some (some "https://e.com/constructor".toList)] initState).1.visited := by
  exact ⟨by decide, by decide, by decide, by decide⟩

/-- Claim C4, amended: for a review that passes the guard and whose derived
filename is not one of the `Object.prototype`-inherited property names (for
those, the truthy lookup skips the review without inserting or attempting
anything), the filename is inserted into the visited set by the review's
own iteration (and membership persists to the end of the run), so even when
that review's download attempt fails and is counted as errored, a later
review deriving the same filename is counted as skipped and no second
attempt for that filename is made. -/
theorem claim_visited_before_attempt (env : Env) (folder : List Char)
    (as bs cs : List Review) (r1 r2 : Review) (f : List Char)
    (h1 : derivedFilename r1 = some f) (h2 : derivedFilename r2 = some f)
    (hp : f ∉ protoKeys)
    (hfail : (processReviews env folder (as ++ (r1 :: (bs ++ (r2 :: cs)))) initState).2.get?
        as.length = some (Outcome.errored f)) :
    f ∈ (processReviews env folder (as ++ (r1 :: (bs ++ (r2 :: cs)))) initState).1.visited
    ∧ (processReviews env folder (as ++ (r1 :: (bs ++ (r2 :: cs)))) initState).2.get?
        (as.length + (1 + bs.length)) = some Outcome.skipped
    ∧ List.countP (isAttemptOn f)
        (processReviews env folder (as ++ (r1 :: (bs ++ (r2 :: cs)))) initState).2 = 1 := by
  clear hfail
  have hfB : f ∈ (processReview env folder
      (processReviews env folder as initState).1 r1).1.visited :=
    processReview_visited_of_derived env folder _ r1 f h1 hp
  have hfC : f ∈ (processReviews env folder bs
      (processReview env folder (processReviews env folder as initState).1 r1).1).1.visited :=
    processReviews_visited_sub env folder bs _ hfB
  have ho2 : (processReview env folder (processReviews env folder bs
      (processReview env folder
        (processReviews env folder as initState).1 r1).1).1 r2).2 = Outcome.skipped :=
    processReview_skipped_of_visited env folder _ r2 f h2 hfC
  have hfD : f ∈ (processReview env folder (processReviews env folder bs
      (processReview env folder
        (processReviews env folder as initState).1 r1).1).1 r2).1.visited :=
    processReview_visited_sub env folder _ r2 hfC
  have hfF : f ∈ (processReviews env folder cs
      (processReview env folder (processReviews env folder bs
        (processReview env folder
          (processReviews env folder as initState).1 r1).1).1 r2).1).1.visited :=
    processReviews_visited_sub env folder cs _ hfD
  refine ⟨?_, ?_, ?_⟩
  · rw [processReviews_append_fst, processReviews_cons_fst,
      processReviews_append_fst, processReviews_cons_fst]
    exact hfF
  · rw [processReviews_append_snd, processReviews_cons_snd,
      processReviews_append_snd, processReviews_cons_snd,
      ← processReviews_length env folder as initState,
      ← processReviews_length env folder bs
        (processReview env folder (processReviews env folder as initState).1 r1).1,
      get?_concat_mid, ho2]
  · have hkey := processReviews_countP_attempts env folder f
      (as ++ (r1 :: (bs ++ (r2 :: cs)))) initState
    rw [processReviews_append_fst, processReviews_cons_fst,
      processReviews_append_fst, processReviews_cons_fst] at hkey
    rw [if_pos hfF] at hkey
    simpa [initState] using hkey

/-- Witness for C4 at a concrete run in which the only download attempt
fails (the transport errors), the filename is nevertheless visited, and the
second review with the same URL is skipped. -/
theorem claim_visited_before_attempt_witness :
    derivedFilename (some (some "https://e.com/a.jpg".toList))
        = some "a.jpg".toList
    ∧ "a.jpg".toList ∉ protoKeys
    ∧ (processReviews ⟨fun _ => Except.error [], fun _ _ => Except.ok ()⟩ []
        ([] ++ ((some (some "https://e.com/a.jpg".toList)) ::
          ([] ++ ((some (some "https://e.com/a.jpg".toList)) :: []))))
        initState).2.get? 0 = some (Outcome.errored "a.jpg".toList)
    ∧ ("a.jpg".toList ∈ (processReviews ⟨fun _ => Except.error [], fun _ _ => Except.ok ()⟩ []
        ([] ++ ((some (some "https://e.com/a.jpg".toList)) ::
          ([] ++ ((some (some "https://e.com/a.jpg".toList)) :: []))))
        initState).1.visited
      ∧ (processReviews ⟨fun _ => Except.error [], fun _ _ => Except.ok ()⟩ []
          ([] ++ ((some (some "https://e.com/a.jpg".toList)) ::
            ([] ++ ((some (some "https://e.com/a.jpg".toList)) :: []))))
          initState).2.get? 1 = some Outcome.skipped
      ∧ List.countP (isAttemptOn "a.jpg".toList)
          (processReviews ⟨fun _ => Except.error [], fun _ _ => Except.ok ()⟩ []
            ([] ++ ((some (some "https://e.com/a.jpg".toList)) ::
              ([] ++ ((some (some "https://e.com/a.jpg".toList)) :: []))))
            initState).2 = 1) := by
  refine ⟨by decide, by decide, by decide, ?_⟩
  exact claim_visited_before_attempt ⟨fun _ => Except.error [], fun _ _ => Except.ok ()⟩
    [] [] [] [] (some (some "https://e.com/a.jpg".toList))
    (some (some "https://e.com/a.jpg".toList)) ("a.jpg".toList)
    (by decide) (by decide) (by decide) (by decide)

/-- Claim C8, counterexample: the three family markers are not mutually
exclusive — this URL contains both `/iap/` and `/il/` — and evaluating the
family checks in a different order (here `/il/` first) changes the result:
the `/il/` branch's `il_WxH` regex finds nothing, so the URL is returned
unchanged, while the implemented order rewrites `iap_75x75`. -/
theorem claim_order_independence_counterexample :
    (jsIncludes "/iap/".toList "http://e/il/iap/iap_75x75.9.jpg".toList = true
      ∧ jsIncludes "/il/".toList "http://e/il/iap/iap_75x75.9.jpg".toList = true)
    ∧ applyFamilies [ilFamily, iapFamily, iusaFamily]
        "http://e/il/iap/iap_75x75.9.jpg".toList
      ≠ formatImageUrl "http://e/il/iap/iap_75x75.9.jpg".toList := by
  exact ⟨⟨by decide, by decide⟩, by decide⟩

/-- Claim C8, amended: for every URL containing at most one of the three
family markers, evaluating the family checks in any order (any permutation
of the three families) yields the same result as the implemented order. -/
theorem claim_order_independence_amended (u : List Char)
    (h12 : ¬(jsIncludes "/iap/".toList u = true ∧ jsIncludes "/il/".toList u = true))
    (h13 : ¬(jsIncludes "/iap/".toList u = true ∧ jsIncludes "/iusa/".toList u = true))
    (h23 : ¬(jsIncludes "/il/".toList u = true ∧ jsIncludes "/iusa/".toList u = true))
    (l : List Family) (hperm : l.Perm [iapFamily, ilFamily, iusaFamily]) :
    applyFamilies l u = formatImageUrl u := by
  have hmem : ∀ g ∈ l, g = iapFamily ∨ g = ilFamily ∨ g = iusaFamily := by
    intro g hg
    simpa using hperm.mem_iff.mp hg
  cases hiap : jsIncludes "/iap/".toList u with
  | true =>
    have hil : jsIncludes "/il/".toList u = false := by
      cases hil2 : jsIncludes "/il/".toList u with
      | true => exact absurd ⟨hiap, hil2⟩ h12
      | false => rfl
    have hiusa : jsIncludes "/iusa/".toList u = false := by
      cases hiu2 : jsIncludes "/iusa/".toList u with
      | true => exact absurd ⟨hiap, hiu2⟩ h13
      | false => rfl
    rw [applyFamilies_of_matched u iapFamily hiap l
      (hperm.mem_iff.mpr (by simp)) ?hsame]
    case hsame =>
      intro g hg hginc
      rcases hmem g hg with rfl | rfl | rfl
      · rfl
      · have hm2 : jsIncludes "/il/".toList u = true := hginc
        rw [hil] at hm2
        exact Bool.noConfusion hm2
      · have hm2 : jsIncludes "/iusa/".toList u = true := hginc
        rw [hiusa] at hm2
        exact Bool.noConfusion hm2
    show replaceDim "iap_".toList "iap_640x640".toList u = formatImageUrl u
    unfold formatImageUrl
    rw [if_pos hiap]
  | false =>
    cases hil : jsIncludes "/il/".toList u with
    | true =>
      have hiusa : jsIncludes "/iusa/".toList u = false := by
        cases hiu2 : jsIncludes "/iusa/".toList u with
        | true => exact absurd ⟨hil, hiu2⟩ h23
        | false => rfl
      rw [applyFamilies_of_matched u ilFamily hil l
        (hperm.mem_iff.mpr (by simp)) ?hsame]
      case hsame =>
        intro g hg hginc
        rcases hmem g hg with rfl | rfl | rfl
        · have hm2 : jsIncludes "/iap/".toList u = true := hginc
          rw [hiap] at hm2
          exact Bool.noConfusion hm2
        · rfl
        · have hm2 : jsIncludes "/iusa/".toList u = true := hginc
          rw [hiusa] at hm2
          exact Bool.noConfusion hm2
      show replaceDim "il_".toList "il_570x456".toList u = formatImageUrl u
      unfold formatImageUrl
      rw [if_neg (by rw [hiap]; simp), if_pos hil]
    | false =>
      cases hiusa : jsIncludes "/iusa/".toList u with
      | true =>
        rw [applyFamilies_of_matched u iusaFamily hiusa l
          (hperm.mem_iff.mpr (by simp)) ?hsame]
        case hsame =>
          intro g hg hginc
          rcases hmem g hg with rfl | rfl | rfl
          · have hm2 : jsIncludes "/iap/".toList u = true := hginc
            rw [hiap] at hm2
            exact Bool.noConfusion hm2
          · have hm2 : jsIncludes "/il/".toList u = true := hginc
            rw [hil] at hm2
            exact Bool.noConfusion hm2
          · rfl
        show replaceDim "iusa_".toList "iusa_400x400".toList u = formatImageUrl u
        unfold formatImageUrl
        rw [if_neg (by rw [hiap]; simp), if_neg (by rw [hil]; simp), if_pos hiusa]
      | false =>
        rw [applyFamilies_of_none u l ?hnone]
        case hnone =>
          intro g hg
          rcases hmem g hg with rfl | rfl | rfl
          · exact hiap
          · exact hil
          · exact hiusa
        unfold formatImageUrl
        rw [if_neg (by rw [hiap]; simp), if_neg (by rw [hil]; simp),
          if_neg (by rw [hiusa]; simp)]

/-- Witness for C8 at a concrete URL matching exactly one marker and the
check order that tries `/il/` first. -/
theorem claim_order_independence_amended_witness :
    (¬(jsIncludes "/iap/".toList "https://e.com/iap/iap_75x75.1.jpg".toList = true
        ∧ jsIncludes "/il/".toList "https://e.com/iap/iap_75x75.1.jpg".toList = true))
    ∧ (¬(jsIncludes "/iap/".toList "https://e.com/iap/iap_75x75.1.jpg".toList = true
        ∧ jsIncludes "/iusa/".toList "https://e.com/iap/iap_75x75.1.jpg".toList = true))
    ∧ (¬(jsIncludes "/il/".toList "https://e.com/iap/iap_75x75.1.jpg".toList = true
        ∧ jsIncludes "/iusa/".toList "https://e.com/iap/iap_75x75.1.jpg".toList = true))
    ∧ applyFamilies [ilFamily, iapFamily, iusaFamily]
        "https://e.com/iap/iap_75x75.1.jpg".toList
      = formatImageUrl "https://e.com/iap/iap_75x75.1.jpg".toList := by
  refine ⟨by decide, by decide, by decide, ?_⟩
  exact claim_order_independence_amended "https://e.com/iap/iap_75x75.1.jpg".toList
    (by decide) (by decide) (by decide) [ilFamily, iapFamily, iusaFamily]
    (List.Perm.swap iapFamily ilFamily [iusaFamily])

/-- A URL ending in `'/'` has an empty final path segment, so extraction
yields the empty string. -/
theorem getFilenameFromUrl_of_trailing_slash (v : List Char) :
    getFilenameFromUrl (v ++ ['/']) = [] := by
  rw [getFilenameFromUrl_eq_spec, List.reverse_append]
  simp

/-- Claim C10, counterexample: for a URL ending in `'/'` the extracted
filename is empty, but the derived local file path is not the output folder
path itself: `path.join` normalises, so folder `./out` yields `out`. -/
theorem claim_trailing_slash_counterexample :
    getFilenameFromUrl "https://e.com/img/".toList = []
    ∧ nodePathJoin ["./out".toList, getFilenameFromUrl "https://e.com/img/".toList]
      ≠ "./out".toList := by
  exact ⟨by decide, by decide⟩

/-- Claim C10, amended: for every URL whose last character is `'/'`, the
Filename Extractor returns the empty string, and the derived local file
path `path.join(outputFolder, '')` is the normalised output folder path
(which is the output folder path itself exactly when that string is already
in normal form). -/
theorem claim_trailing_slash_amended (u folder : List Char)
    (h : ∃ v, u = v ++ ['/']) :
    getFilenameFromUrl u = []
    ∧ nodePathJoin [folder, getFilenameFromUrl u] = nodeNormalize folder := by
  obtain ⟨v, rfl⟩ := h
  refine ⟨getFilenameFromUrl_of_trailing_slash v, ?_⟩
  rw [getFilenameFromUrl_of_trailing_slash v]
  exact nodePathJoin_empty_right folder

/-- Witness for C10 at a concrete URL with trailing slash and an output
folder already in normal form. -/
theorem claim_trailing_slash_amended_witness :
    (∃ v, "https://e.com/img/".toList = v ++ ['/'])
    ∧ getFilenameFromUrl "https://e.com/img/".toList = []
    ∧ nodePathJoin ["Result".toList, getFilenameFromUrl "https://e.com/img/".toList]
      = nodeNormalize "Result".toList := by
  refine ⟨⟨"https://e.com/img".toList, by decide⟩, ?_, ?_⟩
  · exact (claim_trailing_slash_amended "https://e.com/img/".toList "Result".toList
      ⟨"https://e.com/img".toList, by decide⟩).1
  · exact (claim_trailing_slash_amended "https://e.com/img/".toList "Result".toList
      ⟨"https://e.com/img".toList, by decide⟩).2
